import Mathlib

/-!
Verification of `webpack/test_env/webpack.config.js`.

The module evaluates one object literal.  Four of its five leaves are string or
number literals; the fifth, `output.path`, is `path.resolve(__dirname, 'dist')`.

The embedding below makes the base directory (`__dirname`) an argument of the
construction and transcribes the POSIX implementation of `path.resolve`
(together with `path.join`, `path.normalize`, `path.isAbsolute` and the shared
`normalizeString`) from the platform library `lib/path.js` that
`require('path')` loads.  JavaScript strings are sequences of UTF-16 code
units, so every index, length and `charCodeAt` below is literal.
-/

namespace WebpackConfig

/-! ## JavaScript strings -/

/-- A JavaScript string: its sequence of UTF-16 code units. -/
abbrev JSString := List Nat

/-- UTF-16 code units of one Unicode scalar value. -/
def utf16 (c : Char) : List Nat :=
  if c.toNat < 0x10000 then [c.toNat]
  else [0xD800 + (c.toNat - 0x10000) / 0x400, 0xDC00 + (c.toNat - 0x10000) % 0x400]

/-- The JavaScript string denoted by a string literal. -/
def js (s : String) : JSString :=
  s.toList.foldr (fun c acc => utf16 c ++ acc) []

/-- Constant `CHAR_FORWARD_SLASH`, the code unit of `/`. -/
def CHAR_FORWARD_SLASH : Nat := 47

/-- Constant `CHAR_DOT`, the code unit of `.`. -/
def CHAR_DOT : Nat := 46

/-- Method `String.prototype.slice(start, end)`: negative indices count from the end,
and both are clamped to the string. -/
def slice (s : JSString) (start stop : Int) : JSString :=
  let len : Int := s.length
  let lo := if start < 0 then max (len + start) 0 else min start len
  let hi := if stop < 0 then max (len + stop) 0 else min stop len
  (s.take hi.toNat).drop lo.toNat

/-- Index of the last occurrence of the code unit `c` in the list, scanning
from position `i`; `none` when there is none. -/
def lastIndexFrom (c : Nat) : List Nat → Nat → Option Nat
  | [], _ => none
  | x :: xs, i =>
    match lastIndexFrom c xs (i + 1) with
    | some j => some j
    | none => if x = c then some i else none

/-- Method `String.prototype.lastIndexOf` for a one-unit search string: the index of
the last occurrence, or `-1`. -/
def lastIndexOf (s : JSString) (c : Nat) : Int :=
  match lastIndexFrom c s 0 with
  | some j => (j : Int)
  | none => -1

/-- Method `charCodeAt(i)`; out-of-range reads (which give `NaN`) never equal a
character code, and are rendered as a value no code unit takes. -/
def charCodeAt (s : JSString) (i : Int) : Nat :=
  if i < 0 then 0x10000 else s.getD i.toNat 0x10000

/-! ## `lib/path.js`, POSIX flavour -/

/-- Function `isPosixPathSeparator(code)`: `code === CHAR_FORWARD_SLASH`. -/
def isPosixPathSeparator (code : Nat) : Bool := code == CHAR_FORWARD_SLASH

/-- The local variables of `normalizeString` that survive an iteration. -/
structure NormState where
  res : JSString
  lastSegmentLength : Int
  lastSlash : Int
  dots : Int
  deriving DecidableEq, Repr

/-- One iteration of the loop of `normalizeString`, after `code` has been
chosen for index `i`.  A branch that ends in `continue` has already assigned
`lastSlash = i; dots = 0`, like the branches that fall through to those two
assignments. -/
def normalizeBody (path : JSString) (allowAboveRoot : Bool) (i : Nat) (code : Nat)
    (st : NormState) : NormState :=
  -- if (isPathSeparator(code)) {
  if isPosixPathSeparator code then
    -- if (lastSlash === i - 1 || dots === 1) { /* NOOP */ }
    if st.lastSlash = (i : Int) - 1 ∨ st.dots = 1 then
      { st with lastSlash := i, dots := 0 }
    -- else if (dots === 2) {
    else if st.dots = 2 then
      -- if (allowAboveRoot) { res += res.length > 0 ? '/..' : '..'; lastSegmentLength = 2; }
      let aboveRoot : NormState :=
        if allowAboveRoot then
          { res := st.res ++ (if st.res.length > 0 then js "/.." else js ".."),
            lastSegmentLength := 2, lastSlash := i, dots := 0 }
        else
          { st with lastSlash := i, dots := 0 }
      -- if (res.length < 2 || lastSegmentLength !== 2 ||
      --     res.charCodeAt(res.length - 1) !== CHAR_DOT ||
      --     res.charCodeAt(res.length - 2) !== CHAR_DOT) {
      if st.res.length < 2 ∨ st.lastSegmentLength ≠ 2 ∨
          charCodeAt st.res ((st.res.length : Int) - 1) ≠ CHAR_DOT ∨
          charCodeAt st.res ((st.res.length : Int) - 2) ≠ CHAR_DOT then
        -- if (res.length > 2) {
        if st.res.length > 2 then
          -- const lastSlashIndex = res.lastIndexOf(separator);
          let lastSlashIndex := lastIndexOf st.res CHAR_FORWARD_SLASH
          -- if (lastSlashIndex === -1) { res = ''; lastSegmentLength = 0; }
          if lastSlashIndex = -1 then
            { res := [], lastSegmentLength := 0, lastSlash := i, dots := 0 }
          else
            -- res = res.slice(0, lastSlashIndex);
            -- lastSegmentLength = res.length - 1 - res.lastIndexOf(separator);
            let res := slice st.res 0 lastSlashIndex
            { res := res,
              lastSegmentLength := (res.length : Int) - 1 - lastIndexOf res CHAR_FORWARD_SLASH,
              lastSlash := i, dots := 0 }
        -- } else if (res.length !== 0) { res = ''; lastSegmentLength = 0; ... continue; }
        else if st.res.length ≠ 0 then
          { res := [], lastSegmentLength := 0, lastSlash := i, dots := 0 }
        else aboveRoot
      else aboveRoot
    else
      -- if (res.length > 0) res += '/' + path.slice(lastSlash + 1, i);
      -- else res = path.slice(lastSlash + 1, i);
      -- lastSegmentLength = i - lastSlash - 1;
      { res := if st.res.length > 0
          then st.res ++ (CHAR_FORWARD_SLASH :: slice path (st.lastSlash + 1) i)
          else slice path (st.lastSlash + 1) i,
        lastSegmentLength := (i : Int) - st.lastSlash - 1,
        lastSlash := i, dots := 0 }
  -- } else if (code === CHAR_DOT && dots !== -1) { ++dots; }
  else if code = CHAR_DOT ∧ st.dots ≠ -1 then
    { st with dots := st.dots + 1 }
  -- else { dots = -1; }
  else
    { st with dots := -1 }

/-- The loop `for (let i = 0; i <= path.length; ++i)` of `normalizeString`.
The first list is the part of `path` from index `i` on, so `i < path.length`
means that a unit is left, and `path.charCodeAt(i)` is its head; `code` is the
value the variable holds from the previous iteration. -/
def normalizeLoop (path : JSString) (allowAboveRoot : Bool) :
    List Nat → Nat → Nat → NormState → JSString
  -- if (i < path.length) code = path.charCodeAt(i);
  | c :: rest, i, _, st =>
    normalizeLoop path allowAboveRoot rest (i + 1) c (normalizeBody path allowAboveRoot i c st)
  | [], i, code, st =>
    -- else if (isPathSeparator(code)) break;
    if isPosixPathSeparator code then st.res
    -- else code = CHAR_FORWARD_SLASH;
    else (normalizeBody path allowAboveRoot i CHAR_FORWARD_SLASH st).res

/-- Function `normalizeString(path, allowAboveRoot, '/', isPosixPathSeparator)`: resolves
`.` and `..` elements in a path with directory names.  The locals start as
`res = ''`, `lastSegmentLength = 0`, `lastSlash = -1`, `dots = 0`, `code = 0`. -/
def normalizeString (path : JSString) (allowAboveRoot : Bool) : JSString :=
  normalizeLoop path allowAboveRoot path 0 0
    { res := [], lastSegmentLength := 0, lastSlash := -1, dots := 0 }

/-- What can be thrown while the module is evaluated: `process.cwd()` throws a
system error (`ENOENT`, syscall `uv_cwd`) when the working directory is gone. -/
inductive JSError where
  | ENOENT_uv_cwd
  deriving DecidableEq, Repr

/-- Function `posix.isAbsolute(path)`:
`path.length > 0 && path.charCodeAt(0) === CHAR_FORWARD_SLASH`. -/
def isAbsolute (path : JSString) : Bool :=
  path.length > 0 && charCodeAt path 0 == CHAR_FORWARD_SLASH

/-- The line `const path = i >= 0 ? args[i] : posixCwd();` of `posix.resolve`,
as a function of `i + 1`; `posixCwd()` may throw. -/
def resolveArg (posixCwd : Except JSError JSString) (args : List JSString) :
    Nat → Except JSError JSString
  | 0 => posixCwd
  | i + 1 => .ok (args.getD i [])

/-- The loop `for (let i = args.length - 1; i >= -1 && !resolvedAbsolute; i--)`
of `posix.resolve`; the counter is `i + 2`. -/
def resolveLoop (posixCwd : Except JSError JSString) (args : List JSString) :
    Nat → JSString → Bool → Except JSError (JSString × Bool)
  | 0, resolvedPath, resolvedAbsolute => .ok (resolvedPath, resolvedAbsolute)
  | n + 1, resolvedPath, resolvedAbsolute =>
    if resolvedAbsolute then .ok (resolvedPath, resolvedAbsolute)
    else
      match resolveArg posixCwd args n with
      | .error e => .error e
      | .ok path =>
        -- Skip empty entries: if (path.length === 0) continue;
        if path.length = 0 then
          resolveLoop posixCwd args n resolvedPath resolvedAbsolute
        else
          -- resolvedPath = path + '/' + resolvedPath;
          -- resolvedAbsolute = path.charCodeAt(0) === CHAR_FORWARD_SLASH;
          resolveLoop posixCwd args n (path ++ CHAR_FORWARD_SLASH :: resolvedPath)
            (charCodeAt path 0 == CHAR_FORWARD_SLASH)

/-- Function `posix.resolve(...args)`: the loop, then
`resolvedPath = normalizeString(resolvedPath, !resolvedAbsolute, '/', isPosixPathSeparator)`,
then `'/' + resolvedPath` when `resolvedAbsolute`, and otherwise
`resolvedPath.length > 0 ? resolvedPath : '.'`. -/
def resolve (posixCwd : Except JSError JSString) (args : List JSString) :
    Except JSError JSString :=
  match resolveLoop posixCwd args (args.length + 1) [] false with
  | .error e => .error e
  | .ok (resolvedPath, resolvedAbsolute) =>
    let resolvedPath := normalizeString resolvedPath (!resolvedAbsolute)
    if resolvedAbsolute then .ok (CHAR_FORWARD_SLASH :: resolvedPath)
    else .ok (if resolvedPath.length > 0 then resolvedPath else js ".")

/-- Function `posix.normalize(path)`. -/
def normalize (path : JSString) : JSString :=
  if path.length = 0 then js "."
  else
    let isAbs := charCodeAt path 0 == CHAR_FORWARD_SLASH
    let trailingSeparator := charCodeAt path ((path.length : Int) - 1) == CHAR_FORWARD_SLASH
    let path := normalizeString path (!isAbs)
    if path.length = 0 then
      if isAbs then js "/" else if trailingSeparator then js "./" else js "."
    else
      let path := if trailingSeparator then path ++ js "/" else path
      if isAbs then CHAR_FORWARD_SLASH :: path else path

/-- The loop of `posix.join` that glues the non-empty arguments with `/`;
`none` is `joined === undefined`. -/
def joinLoop : List JSString → Option JSString → Option JSString
  | [], joined => joined
  | arg :: args, joined =>
    if arg.length > 0 then
      match joined with
      | none => joinLoop args (some arg)
      | some j => joinLoop args (some (j ++ CHAR_FORWARD_SLASH :: arg))
    else joinLoop args joined

/-- Function `posix.join(...args)`: `'.'` without arguments or when every
argument is empty, and `posix.normalize(joined)` otherwise. -/
def join (args : List JSString) : JSString :=
  if args.length = 0 then js "."
  else
    match joinLoop args none with
    | none => js "."
    | some joined => normalize joined

/-! ## The configuration module -/

/-- The `output` object. -/
structure Output where
  path : JSString
  filename : JSString
  deriving DecidableEq, Repr

/-- The `devServer` object. -/
structure DevServer where
  port : Nat
  deriving DecidableEq, Repr

/-- The object assigned to `module.exports`. -/
structure Config where
  mode : JSString
  entry : JSString
  output : Output
  devServer : DevServer
  deriving DecidableEq, Repr

/-- Evaluation of `webpack.config.js` in a module whose `__dirname` is
`dirname`, in a process whose `process.cwd()` gives `posixCwd`:
`module.exports = { mode: 'development', entry: './index.js', output: { path:
path.resolve(__dirname, 'dist'), filename: 'app.bundle.js' }, devServer: {
port: 9381 } }`.  The module throws when `path.resolve` throws. -/
def config (posixCwd : Except JSError JSString) (dirname : JSString) :
    Except JSError Config :=
  match resolve posixCwd [dirname, js "dist"] with
  | .error e => .error e
  | .ok p =>
    .ok { mode := js "development",
          entry := js "./index.js",
          output := { path := p, filename := js "app.bundle.js" },
          devServer := { port := 9381 } }

/-! ## Auxiliary definitions for the proofs -/

/-- State of `normalizeLoop` (the variable `code` and the other locals) after
the units of the list have been consumed from index `i` on. -/
def normalizeRun (path : JSString) (allowAboveRoot : Bool) :
    List Nat → Nat → Nat → NormState → Nat × NormState
  | [], _, code, st => (code, st)
  | c :: rest, i, _, st =>
    normalizeRun path allowAboveRoot rest (i + 1) c (normalizeBody path allowAboveRoot i c st)

/-- Appending the segment `dist` to a normalised relative path. -/
def pushDist (r : JSString) : JSString :=
  if r.length > 0 then r ++ CHAR_FORWARD_SLASH :: js "dist" else js "dist"

/-- Adds a suffix to the path accumulated by `resolveLoop`. -/
def withSuffix (suffix : JSString) :
    Except JSError (JSString × Bool) → Except JSError (JSString × Bool)
  | .error e => .error e
  | .ok (p, a) => .ok (p ++ suffix, a)

/-- A non-empty entry followed by its separator, as `resolveLoop` prepends it. -/
def dirPart (x : JSString) : JSString :=
  if x.length = 0 then [] else x ++ [CHAR_FORWARD_SLASH]

/-- The exported object whose `output.path` is `p`. -/
def exportsWith (p : JSString) : Config :=
  { mode := js "development",
    entry := js "./index.js",
    output := { path := p, filename := js "app.bundle.js" },
    devServer := { port := 9381 } }

/-! ## Facts about strings -/

theorem js_dist : js "dist" = [100, 105, 115, 116] := by decide

theorem slice_append_left (P t : JSString) (a : Int) (i : Nat) (ha : 0 ≤ a)
    (hi : i ≤ P.length) : slice (P ++ t) a i = slice P a i := by
  unfold slice
  have h1 : ¬ ((i : Int) < 0) := by omega
  have h2 : ¬ (a < 0) := by omega
  simp only [h1, h2, if_false, List.length_append]
  have e1 : (min (i : Int) ((P.length + t.length : Nat) : Int)).toNat = i := by
    rw [min_eq_left (by exact_mod_cast (by omega : i ≤ P.length + t.length))]; simp
  have e2 : (min (i : Int) (P.length : Int)).toNat = i := by
    rw [min_eq_left (by exact_mod_cast hi)]; simp
  rw [e1, e2, List.take_append_of_le_length hi]
  by_cases hab : a ≤ P.length
  · rw [min_eq_left hab, min_eq_left (by push_cast; omega)]
  · have hab2 : (P.length : Int) ≤ a := by omega
    rw [min_eq_right hab2]
    have : ∀ k : Nat, i ≤ k → (List.take i P).drop k = [] := by
      intro k hk
      apply List.drop_eq_nil_of_le
      simp; omega
    rw [this _ (by simp; omega), this _ (by
      have : (P.length : Int) ≤ min a ((P.length + t.length : Nat) : Int) := by
        apply le_min hab2; push_cast; omega
      omega)]

/-! ## The loop of `normalizeString` -/

theorem normalizeBody_append (P t : JSString) (allow : Bool) (i c : Nat) (st : NormState)
    (hls : -1 ≤ st.lastSlash) (hi : i ≤ P.length) :
    normalizeBody (P ++ t) allow i c st = normalizeBody P allow i c st := by
  unfold normalizeBody
  rw [slice_append_left P t (st.lastSlash + 1) i (by omega) hi]

theorem normalizeBody_lastSlash_ge (P : JSString) (allow : Bool) (i c : Nat) (st : NormState)
    (hls : -1 ≤ st.lastSlash) : -1 ≤ (normalizeBody P allow i c st).lastSlash := by
  unfold normalizeBody
  dsimp only
  split_ifs <;> simp <;> omega

theorem normalizeBody_sep_lastSlash (P : JSString) (allow : Bool) (i c : Nat) (st : NormState)
    (hc : isPosixPathSeparator c = true) : (normalizeBody P allow i c st).lastSlash = i := by
  unfold normalizeBody
  dsimp only
  rw [if_pos hc]
  split_ifs <;> rfl

theorem normalizeBody_noop (P : JSString) (allow : Bool) (i : Nat) (st : NormState)
    (h : st.lastSlash = (i : Int) - 1) :
    (normalizeBody P allow i CHAR_FORWARD_SLASH st).res = st.res := by
  unfold normalizeBody
  simp [isPosixPathSeparator, h]

theorem normalizeLoop_append (path : JSString) (allow : Bool) (r q : List Nat) :
    ∀ (i code : Nat) (st : NormState),
      normalizeLoop path allow (r ++ q) i code st =
        normalizeLoop path allow q (i + r.length)
          (normalizeRun path allow r i code st).1 (normalizeRun path allow r i code st).2 := by
  induction r with
  | nil => intro i code st; simp [normalizeRun]
  | cons c r ih =>
    intro i code st
    have e : i + (c :: r).length = i + 1 + r.length := by simp; omega
    rw [e]
    exact ih (i + 1) c (normalizeBody path allow i c st)

theorem normalizeRun_append_path (P t : JSString) (allow : Bool) (r : List Nat) :
    ∀ (i code : Nat) (st : NormState), -1 ≤ st.lastSlash → i + r.length ≤ P.length →
      normalizeRun (P ++ t) allow r i code st = normalizeRun P allow r i code st := by
  induction r with
  | nil => intro i code st _ _; rfl
  | cons c r ih =>
    intro i code st hls hi
    simp only [List.length_cons] at hi
    simp only [normalizeRun]
    rw [normalizeBody_append P t allow i c st hls (by omega)]
    exact ih (i + 1) c _ (normalizeBody_lastSlash_ge P allow i c st hls) (by omega)

theorem normalizeRun_inv (P : JSString) (allow : Bool) (r : List Nat) :
    ∀ (i code : Nat) (st : NormState), -1 ≤ st.lastSlash →
      (isPosixPathSeparator code = true → st.lastSlash = (i : Int) - 1) →
      -1 ≤ (normalizeRun P allow r i code st).2.lastSlash ∧
      (isPosixPathSeparator (normalizeRun P allow r i code st).1 = true →
        (normalizeRun P allow r i code st).2.lastSlash = ((i + r.length : Nat) : Int) - 1) := by
  induction r with
  | nil => intro i code st h1 h2; simpa [normalizeRun] using ⟨h1, h2⟩
  | cons c r ih =>
    intro i code st h1 _
    simp only [normalizeRun, List.length_cons]
    have := ih (i + 1) c (normalizeBody P allow i c st)
      (normalizeBody_lastSlash_ge P allow i c st h1)
      (fun hc => by rw [normalizeBody_sep_lastSlash P allow i c st hc]; push_cast; omega)
    have e : i + 1 + r.length = i + (r.length + 1) := by omega
    rw [e] at this
    exact this

/-- The initial values of the locals of `normalizeString`. -/
theorem normalizeString_eq_run (P : JSString) (allow : Bool) :
    normalizeString P allow =
      normalizeLoop P allow [] P.length
        (normalizeRun P allow P 0 0
          { res := [], lastSegmentLength := 0, lastSlash := -1, dots := 0 }).1
        (normalizeRun P allow P 0 0
          { res := [], lastSegmentLength := 0, lastSlash := -1, dots := 0 }).2 := by
  unfold normalizeString
  have := normalizeLoop_append P allow P [] 0 0
    { res := [], lastSegmentLength := 0, lastSlash := -1, dots := 0 }
  simpa using this

/-- Processing a separator right after the whole of `P` gives the result of
`normalizeString P`, whatever follows `P` in the path. -/
theorem normalizeBody_after (P t : JSString) (allow : Bool) :
    (normalizeBody (P ++ t) allow P.length CHAR_FORWARD_SLASH
      (normalizeRun P allow P 0 0
        { res := [], lastSegmentLength := 0, lastSlash := -1, dots := 0 }).2).res =
      normalizeString P allow := by
  rw [normalizeString_eq_run]
  obtain ⟨h1, h2⟩ := normalizeRun_inv P allow P 0 0
    { res := [], lastSegmentLength := 0, lastSlash := -1, dots := 0 } (by simp)
    (by simp [isPosixPathSeparator, CHAR_FORWARD_SLASH])
  simp only [Nat.zero_add] at h2
  rw [normalizeBody_append P t allow P.length _ _ h1 (le_refl _)]
  simp only [normalizeLoop]
  split_ifs with hc
  · exact normalizeBody_noop P allow P.length _ (h2 hc)
  · rfl

theorem normalizeString_append_slash (P : JSString) (allow : Bool) :
    normalizeString (P ++ [CHAR_FORWARD_SLASH]) allow = normalizeString P allow := by
  rw [← normalizeBody_after P [CHAR_FORWARD_SLASH] allow]
  unfold normalizeString
  rw [normalizeLoop_append, normalizeRun_append_path P _ allow P 0 0 _ (by simp) (by simp)]
  simp [normalizeLoop, isPosixPathSeparator]

/-- The loop over the units of `dist` and the closing virtual separator,
started right after a separator at index `n`. -/
theorem normalizeLoop_dist (path : JSString) (allow : Bool) (n : Nat) (s1 : NormState)
    (hl : s1.lastSlash = n)
    (hs : slice path ((n : Int) + 1) ((n + 5 : Nat) : Int) = js "dist") :
    normalizeLoop path allow (js "dist") (n + 1) CHAR_FORWARD_SLASH s1 = pushDist s1.res := by
  have e : (n : Int) + 1 + 1 + 1 + 1 + 1 = ((n + 5 : Nat) : Int) := by push_cast; ring
  have hne : ¬ ((n : Int) = (n : Int) + 1 + 1 + 1 + 1) := by omega
  simp only [js_dist, normalizeLoop, normalizeBody, isPosixPathSeparator,
    CHAR_FORWARD_SLASH, CHAR_DOT, pushDist] at hs ⊢
  simp [hl]
  rw [if_neg hne, e, hs]

theorem normalizeString_append_dist (P : JSString) (allow : Bool) :
    normalizeString (P ++ CHAR_FORWARD_SLASH :: js "dist") allow =
      pushDist (normalizeString P allow) := by
  rw [← normalizeBody_after P (CHAR_FORWARD_SLASH :: js "dist") allow]
  unfold normalizeString
  rw [normalizeLoop_append, normalizeRun_append_path P _ allow P 0 0 _ (by simp) (by simp)]
  simp only [Nat.zero_add]
  generalize (normalizeRun P allow P 0 0
    { res := [], lastSegmentLength := 0, lastSlash := -1, dots := 0 }).2 = s
  have hl := normalizeBody_sep_lastSlash (P ++ CHAR_FORWARD_SLASH :: js "dist") allow
    P.length CHAR_FORWARD_SLASH s (by decide)
  have hs : slice (P ++ CHAR_FORWARD_SLASH :: js "dist") ((P.length : Int) + 1)
      ((P.length + 5 : Nat) : Int) = js "dist" := by
    unfold slice
    have h1 : ¬ (((P.length + 5 : Nat) : Int) < 0) := by omega
    have h2 : ¬ ((P.length : Int) + 1 < 0) := by omega
    simp only [h1, h2, if_false, js_dist, List.length_append, List.length_cons,
      List.length_nil]
    rw [min_eq_left (by push_cast; omega), min_eq_left (by push_cast; omega)]
    have e1 : ((P.length + 5 : Nat) : Int).toNat = P.length + 5 := by omega
    have e2 : ((P.length : Int) + 1).toNat = P.length + 1 := by omega
    rw [e1, e2, List.take_append_eq_append_take, List.drop_append_eq_append_drop]
    simp
  simp only [normalizeLoop]
  exact normalizeLoop_dist _ allow P.length _ hl hs

/-! ## `posix.resolve` on `[dirname, 'dist']` -/

theorem resolveLoop_suffix (cwd : Except JSError JSString) (args : List JSString)
    (suffix : JSString) :
    ∀ (n : Nat) (rp : JSString) (ra : Bool),
      resolveLoop cwd args n (rp ++ suffix) ra = withSuffix suffix (resolveLoop cwd args n rp ra) := by
  intro n
  induction n with
  | zero => intro rp ra; rfl
  | succ n ih =>
    intro rp ra
    unfold resolveLoop
    cases ra with
    | true => simp [withSuffix]
    | false =>
      simp only [Bool.false_eq_true, if_false]
      cases hpath : resolveArg cwd args n with
      | error e => simp [withSuffix]
      | ok path =>
        simp only
        by_cases hlen : path.length = 0
        · simp only [hlen, if_true]; exact ih rp false
        · simp only [hlen, if_false]
          have := ih (path ++ CHAR_FORWARD_SLASH :: rp) (charCodeAt path 0 == CHAR_FORWARD_SLASH)
          simpa using this

theorem resolveLoop_head (cwd : Except JSError JSString) (D x : JSString) (rp : JSString)
    (ra : Bool) : resolveLoop cwd [D, x] 2 rp ra = resolveLoop cwd [D] 2 rp ra := by
  simp [resolveLoop, resolveArg]

theorem resolveLoop_dist (cwd : Except JSError JSString) (D : JSString) :
    resolveLoop cwd [D, js "dist"] 3 [] false =
      withSuffix (js "dist" ++ [CHAR_FORWARD_SLASH]) (resolveLoop cwd [D] 2 [] false) := by
  rw [← resolveLoop_suffix, ← resolveLoop_head cwd D (js "dist")]
  conv => lhs; unfold resolveLoop
  simp [js_dist, charCodeAt, CHAR_FORWARD_SLASH, resolveArg]

/-- The loop of `posix.resolve` on the single argument `D`. -/
theorem resolveLoop_base (cwd : Except JSError JSString) (D : JSString) :
    resolveLoop cwd [D] 2 [] false =
      if isAbsolute D then .ok (D ++ [CHAR_FORWARD_SLASH], true)
      else match cwd with
        | .error e => .error e
        | .ok c => .ok (dirPart c ++ dirPart D, isAbsolute c) := by
  cases D with
  | nil =>
    cases cwd with
    | error e => simp [resolveLoop, resolveArg, isAbsolute]
    | ok c =>
      cases c with
      | nil => simp [resolveLoop, resolveArg, isAbsolute, dirPart]
      | cons x c => simp [resolveLoop, resolveArg, isAbsolute, dirPart, charCodeAt]
  | cons d D =>
    by_cases hd : d = CHAR_FORWARD_SLASH
    · simp [resolveLoop, resolveArg, isAbsolute, charCodeAt, hd]
    · cases cwd with
      | error e => simp [resolveLoop, resolveArg, isAbsolute, charCodeAt, hd]
      | ok c =>
        cases c with
        | nil => simp [resolveLoop, resolveArg, isAbsolute, dirPart, charCodeAt, hd]
        | cons x c => simp [resolveLoop, resolveArg, isAbsolute, dirPart, charCodeAt, hd]

theorem dirPart_shape (x : JSString) :
    dirPart x = [] ∨ ∃ Y, dirPart x = Y ++ [CHAR_FORWARD_SLASH] := by
  unfold dirPart
  split_ifs
  · exact Or.inl rfl
  · exact Or.inr ⟨x, rfl⟩

/-- The path accumulated for `[D]` is empty or ends with a separator. -/
theorem resolveLoop_shape (cwd : Except JSError JSString) (D p : JSString) (a : Bool)
    (h : resolveLoop cwd [D] 2 [] false = .ok (p, a)) :
    p = [] ∨ ∃ Y, p = Y ++ [CHAR_FORWARD_SLASH] := by
  rw [resolveLoop_base] at h
  split_ifs at h
  · simp only [Except.ok.injEq, Prod.mk.injEq] at h
    exact Or.inr ⟨D, h.1.symm⟩
  · cases cwd with
    | error e => simp at h
    | ok c =>
      simp only [Except.ok.injEq, Prod.mk.injEq] at h
      rw [← h.1]
      rcases dirPart_shape D with hD | ⟨Y, hY⟩
      · rw [hD, List.append_nil]; exact dirPart_shape c
      · exact Or.inr ⟨dirPart c ++ Y, by rw [hY, List.append_assoc]⟩

/-- Normalising a path of that shape followed by `dist/`. -/
theorem normalizeString_dist_slash (p : JSString) (allow : Bool)
    (hp : p = [] ∨ ∃ Y, p = Y ++ [CHAR_FORWARD_SLASH]) :
    normalizeString (p ++ (js "dist" ++ [CHAR_FORWARD_SLASH])) allow =
      pushDist (normalizeString p allow) := by
  rw [← List.append_assoc, normalizeString_append_slash]
  rcases hp with rfl | ⟨Y, rfl⟩
  · cases allow <;> decide
  · rw [List.append_assoc, List.singleton_append, normalizeString_append_dist,
      normalizeString_append_slash]

theorem pushDist_length_pos (r : JSString) : (pushDist r).length > 0 := by
  unfold pushDist
  split_ifs <;> simp [js_dist]

/-- Value of `path.resolve(D, 'dist')` in terms of the loop for `D` alone. -/
theorem resolve_dist (cwd : Except JSError JSString) (D : JSString) :
    resolve cwd [D, js "dist"] =
      match resolveLoop cwd [D] 2 [] false with
      | .error e => .error e
      | .ok (p, a) =>
        .ok (if a then CHAR_FORWARD_SLASH :: pushDist (normalizeString p (!a))
             else pushDist (normalizeString p (!a))) := by
  unfold resolve
  simp only [List.length_cons, List.length_nil]
  rw [show 0 + 1 + 1 + 1 = 3 from rfl, resolveLoop_dist]
  cases h : resolveLoop cwd [D] 2 [] false with
  | error e => rfl
  | ok pa =>
    obtain ⟨p, a⟩ := pa
    simp only [withSuffix, List.nil_append]
    rw [normalizeString_dist_slash p _ (resolveLoop_shape cwd D p a h)]
    cases a
    · simp [pushDist_length_pos]
    · simp

/-! ## The result of `normalizeString` never starts with a separator -/

theorem slice_zero_head (r : JSString) (k : Int) (h : r.head? ≠ some CHAR_FORWARD_SLASH) :
    (slice r 0 k).head? ≠ some CHAR_FORWARD_SLASH := by
  unfold slice
  simp only [lt_self_iff_false, if_false]
  have h0 : (min (0 : Int) (r.length : Int)).toNat = 0 := by
    rw [min_eq_left (by omega)]; rfl
  rw [h0, List.drop_zero]
  generalize (if k < 0 then max ((r.length : Int) + k) 0 else min k (r.length : Int)).toNat = m
  cases r with
  | nil => simp
  | cons x r =>
    cases m with
    | zero => simp
    | succ m => simpa using h

theorem slice_head (path : JSString) (a b : Int) (ha : 0 ≤ a)
    (h : charCodeAt path a ≠ CHAR_FORWARD_SLASH) :
    (slice path a b).head? ≠ some CHAR_FORWARD_SLASH := by
  unfold slice
  have h2 : ¬ (a < 0) := by omega
  simp only [h2, if_false]
  generalize (if b < 0 then max ((path.length : Int) + b) 0 else min b (path.length : Int)).toNat = m
  unfold charCodeAt at h
  simp only [h2, if_false] at h
  by_cases hal : a ≤ path.length
  · rw [min_eq_left hal]
    rw [List.head?_drop, List.getElem?_take]
    split_ifs with hm
    · intro hc
      apply h
      rw [List.getD_eq_getElem?_getD, hc]
      rfl
    · simp
  · rw [min_eq_right (by omega)]
    have : (List.take m path).drop (path.length : Int).toNat = [] := by
      apply List.drop_eq_nil_of_le
      simp
    rw [this]
    simp

theorem normalizeBody_res_head (path : JSString) (allow : Bool) (i c : Nat) (st : NormState)
    (h1 : -1 ≤ st.lastSlash) (h2 : st.lastSlash < i)
    (h3 : st.res.head? ≠ some CHAR_FORWARD_SLASH)
    (h4 : st.lastSlash + 1 < i → charCodeAt path (st.lastSlash + 1) ≠ CHAR_FORWARD_SLASH) :
    (normalizeBody path allow i c st).res.head? ≠ some CHAR_FORWARD_SLASH := by
  have happ : ∀ t : JSString, st.res.length > 0 →
      (st.res ++ t).head? ≠ some CHAR_FORWARD_SLASH := by
    intro t hn
    cases hr : st.res with
    | nil => rw [hr] at hn; simp at hn
    | cons x r => rw [hr] at h3; simpa using h3
  have hnil : ¬ st.res.length > 0 → (st.res ++ js "..").head? ≠ some CHAR_FORWARD_SLASH := by
    intro hn
    have : st.res = [] := by
      cases hr : st.res with
      | nil => rfl
      | cons x r => rw [hr] at hn; simp at hn
    rw [this]
    decide
  have hseg : ¬ (st.lastSlash = (i : Int) - 1 ∨ st.dots = 1) →
      (slice path (st.lastSlash + 1) i).head? ≠ some CHAR_FORWARD_SLASH := by
    intro hc
    have := not_or.mp hc
    exact slice_head _ _ _ (by omega) (h4 (by omega))
  unfold normalizeBody
  dsimp only
  split_ifs
  all_goals dsimp only
  all_goals first
    | exact h3
    | exact slice_zero_head _ _ h3
    | exact happ _ (by assumption)
    | exact hnil (by assumption)
    | exact hseg (by assumption)
    | (simp only [List.head?_nil]; exact fun h => Option.noConfusion h)

theorem normalizeBody_lastSlash_lt (path : JSString) (allow : Bool) (i c : Nat)
    (st : NormState) (h2 : st.lastSlash < i) :
    (normalizeBody path allow i c st).lastSlash < ((i + 1 : Nat) : Int) := by
  unfold normalizeBody
  dsimp only
  split_ifs <;> simp <;> omega

theorem normalizeBody_nonsep_lastSlash (path : JSString) (allow : Bool) (i c : Nat)
    (st : NormState) (hc : ¬ isPosixPathSeparator c = true) :
    (normalizeBody path allow i c st).lastSlash = st.lastSlash := by
  unfold normalizeBody
  dsimp only
  rw [if_neg hc]
  split_ifs <;> rfl

theorem charCodeAt_append_cons (pre r : JSString) (c : Nat) :
    charCodeAt (pre ++ c :: r) (pre.length : Int) = c := by
  unfold charCodeAt
  have h : ¬ ((pre.length : Int) < 0) := by omega
  simp only [h, if_false, Int.toNat_ofNat]
  rw [List.getD_eq_getElem?_getD, List.getElem?_append_right (le_refl _)]
  simp

theorem normalizeRun_head (allow : Bool) (r : List Nat) :
    ∀ (pre : JSString) (code : Nat) (st : NormState),
      -1 ≤ st.lastSlash → st.lastSlash < pre.length →
      st.res.head? ≠ some CHAR_FORWARD_SLASH →
      (st.lastSlash + 1 < pre.length →
        charCodeAt (pre ++ r) (st.lastSlash + 1) ≠ CHAR_FORWARD_SLASH) →
      -1 ≤ (normalizeRun (pre ++ r) allow r pre.length code st).2.lastSlash ∧
      (normalizeRun (pre ++ r) allow r pre.length code st).2.lastSlash <
        ((pre.length + r.length : Nat) : Int) ∧
      (normalizeRun (pre ++ r) allow r pre.length code st).2.res.head? ≠
        some CHAR_FORWARD_SLASH ∧
      ((normalizeRun (pre ++ r) allow r pre.length code st).2.lastSlash + 1 <
          ((pre.length + r.length : Nat) : Int) →
        charCodeAt (pre ++ r)
          ((normalizeRun (pre ++ r) allow r pre.length code st).2.lastSlash + 1) ≠
            CHAR_FORWARD_SLASH) := by
  induction r with
  | nil =>
    intro pre code st h1 h2 h3 h4
    simp only [normalizeRun, List.length_nil, Nat.add_zero]
    exact ⟨h1, h2, h3, h4⟩
  | cons c r ih =>
    intro pre code st h1 h2 h3 h4
    have hp : pre ++ c :: r = (pre ++ [c]) ++ r := by simp
    have hl : (pre ++ [c]).length = pre.length + 1 := by simp
    have key := ih (pre ++ [c]) c (normalizeBody (pre ++ c :: r) allow pre.length c st)
      (normalizeBody_lastSlash_ge _ allow _ c st h1)
      (by rw [hl]; exact normalizeBody_lastSlash_lt _ allow _ c st h2)
      (normalizeBody_res_head _ allow _ c st h1 h2 h3 h4)
      (by
        rw [hl, ← hp]
        intro hlt
        by_cases hc : isPosixPathSeparator c = true
        · rw [normalizeBody_sep_lastSlash _ allow _ c st hc] at hlt
          push_cast at hlt
          omega
        · rw [normalizeBody_nonsep_lastSlash _ allow _ c st hc] at hlt ⊢
          by_cases hlt2 : st.lastSlash + 1 < pre.length
          · exact h4 hlt2
          · have e : st.lastSlash + 1 = (pre.length : Int) := by push_cast at hlt; omega
            rw [e, charCodeAt_append_cons]
            simpa [isPosixPathSeparator] using hc)
    rw [hl, ← hp] at key
    simp only [normalizeRun, List.length_cons]
    have e : pre.length + 1 + r.length = pre.length + (r.length + 1) := by omega
    rw [e] at key
    exact key

/-- The result of `normalizeString` never begins with a separator. -/
theorem normalizeString_head (P : JSString) (allow : Bool) :
    (normalizeString P allow).head? ≠ some CHAR_FORWARD_SLASH := by
  rw [normalizeString_eq_run]
  obtain ⟨h1, h2, h3, h4⟩ := normalizeRun_head allow P [] 0
    { res := [], lastSegmentLength := 0, lastSlash := -1, dots := 0 }
    (by simp) (by simp) (by simp) (by simp)
  simp only [List.nil_append, List.length_nil, Nat.zero_add] at h1 h2 h3 h4
  simp only [normalizeLoop]
  split_ifs
  · exact h3
  · exact normalizeBody_res_head P allow P.length _ _ h1 h2 h3 h4

/-! ## The exported object -/

theorem config_eq (cwd : Except JSError JSString) (D : JSString) :
    config cwd D =
      match resolve cwd [D, js "dist"] with
      | .error e => .error e
      | .ok p => .ok (exportsWith p) := rfl

theorem config_ok (cwd : Except JSError JSString) (D : JSString) (r : Config)
    (h : config cwd D = .ok r) :
    resolve cwd [D, js "dist"] = .ok r.output.path ∧ r = exportsWith r.output.path := by
  rw [config_eq] at h
  cases hr : resolve cwd [D, js "dist"] with
  | error e => rw [hr] at h; cases h
  | ok p =>
    rw [hr] at h
    simp only [Except.ok.injEq] at h
    subst h
    exact ⟨rfl, rfl⟩

theorem isAbsolute_cons (D : JSString) (h : isAbsolute D = true) :
    ∃ D', D = CHAR_FORWARD_SLASH :: D' := by
  cases D with
  | nil => simp [isAbsolute] at h
  | cons d D' =>
    refine ⟨D', ?_⟩
    simp [isAbsolute, charCodeAt] at h
    rw [h]

/-- For an absolute `D`, `path.resolve(D, 'dist')` never reaches `process.cwd()`. -/
theorem resolve_dist_absolute (cwd : Except JSError JSString) (D : JSString)
    (h : isAbsolute D = true) :
    resolve cwd [D, js "dist"] =
      .ok (CHAR_FORWARD_SLASH :: pushDist (normalizeString D false)) := by
  rw [resolve_dist, resolveLoop_base, if_pos h]
  simp [normalizeString_append_slash]

/-- For an absolute `D`, `path.join(D, 'dist')`. -/
theorem join_dist_absolute (D : JSString) (h : isAbsolute D = true) :
    join [D, js "dist"] = CHAR_FORWARD_SLASH :: pushDist (normalizeString D false) := by
  obtain ⟨D', rfl⟩ := isAbsolute_cons D h
  have hlast : charCodeAt (CHAR_FORWARD_SLASH :: D' ++ CHAR_FORWARD_SLASH :: js "dist")
      (((CHAR_FORWARD_SLASH :: D' ++ CHAR_FORWARD_SLASH :: js "dist").length : Int) - 1) =
        116 := by
    have e : (CHAR_FORWARD_SLASH :: D' ++ CHAR_FORWARD_SLASH :: js "dist") =
        (CHAR_FORWARD_SLASH :: D' ++ [47, 100, 105, 115]) ++ 116 :: [] := by
      simp [js_dist, CHAR_FORWARD_SLASH]
    have e2 : (((CHAR_FORWARD_SLASH :: D' ++ CHAR_FORWARD_SLASH :: js "dist").length : Int)
        - 1) = ((CHAR_FORWARD_SLASH :: D' ++ [47, 100, 105, 115]).length : Int) := by
      simp only [js_dist, List.length_append, List.length_cons, List.length_nil]
      push_cast
      omega
    rw [e2, e, charCodeAt_append_cons]
  have hpos := pushDist_length_pos (normalizeString (CHAR_FORWARD_SLASH :: D') false)
  have hne : ¬ (pushDist (normalizeString (CHAR_FORWARD_SLASH :: D') false)).length = 0 := by
    omega
  unfold join
  simp only [List.length_cons, List.length_nil, joinLoop, js_dist, gt_iff_lt,
    Nat.zero_lt_succ, if_true, Nat.succ_ne_zero, if_false]
  unfold normalize
  rw [js_dist] at hlast
  simp only [hlast]
  rw [← js_dist, normalizeString]
  have hhead : charCodeAt (CHAR_FORWARD_SLASH :: D' ++ CHAR_FORWARD_SLASH :: js "dist") 0 =
      CHAR_FORWARD_SLASH := by
    simp [charCodeAt]
  have hlen : ¬ (CHAR_FORWARD_SLASH :: D' ++ CHAR_FORWARD_SLASH :: js "dist").length = 0 := by
    simp
  simp only [hhead, hlen, if_false, beq_self_eq_true, Bool.not_true]
  rw [← normalizeString, normalizeString_append_dist]
  have hne2 : ¬ pushDist (normalizeString (CHAR_FORWARD_SLASH :: D') false) = [] := by
    intro hnil
    rw [hnil] at hne
    exact hne rfl
  have h116 : ¬ (116 = CHAR_FORWARD_SLASH) := by decide
  simp [hne2, h116]

/-- Value of `path.resolve(D)` in terms of the loop for `D`. -/
theorem resolve_single (cwd : Except JSError JSString) (D : JSString) :
    resolve cwd [D] =
      match resolveLoop cwd [D] 2 [] false with
      | .error e => .error e
      | .ok (p, a) =>
        .ok (if a then CHAR_FORWARD_SLASH :: normalizeString p (!a)
             else if (normalizeString p (!a)).length > 0 then normalizeString p (!a)
             else js ".") := by
  unfold resolve
  cases h : resolveLoop cwd [D] 2 [] false with
  | error e => simp [h]
  | ok pa =>
    obtain ⟨p, a⟩ := pa
    cases a <;> simp [h]

/-- When `path.resolve(D)` is the absolute path `p`, `path.resolve(D, 'dist')`
is `p` with the segment `dist` added. -/
theorem resolve_dist_of_resolved (cwd : Except JSError JSString) (D p : JSString)
    (h : resolve cwd [D] = .ok p) (hp : isAbsolute p = true) :
    resolve cwd [D, js "dist"] = .ok (CHAR_FORWARD_SLASH :: pushDist p.tail) := by
  rw [resolve_single] at h
  rw [resolve_dist]
  cases hl : resolveLoop cwd [D] 2 [] false with
  | error e => rw [hl] at h; cases h
  | ok pa =>
    obtain ⟨q, a⟩ := pa
    rw [hl] at h
    simp only [Except.ok.injEq] at h
    cases a with
    | true =>
      simp only [if_true] at h ⊢
      rw [← h]
      rfl
    | false =>
      exfalso
      simp only [Bool.false_eq_true, if_false, Bool.not_false] at h
      obtain ⟨p', rfl⟩ := isAbsolute_cons p hp
      split_ifs at h with hlen
      · have := normalizeString_head q true
        rw [h] at this
        simp at this
      · have hdot : js "." = [CHAR_DOT] := by decide
        rw [hdot] at h
        simp only [List.cons.injEq] at h
        exact absurd h.1 (by decide)

end WebpackConfig

/-! ## The statements of the specification -/

open WebpackConfig

/-- C1: for every absolute base directory `D`, construction returns a record
whose `output.path` is `path.join(D, 'dist')`; that is, the `path.resolve(D, 'dist')`
of the source and the join of `D` with the segment `dist` coincide. -/
theorem output_path_eq_join (cwd : Except JSError JSString) (D : JSString)
    (hD : isAbsolute D = true) :
    ∃ cfg, config cwd D = .ok cfg ∧ cfg.output.path = join [D, js "dist"] := by
  refine ⟨exportsWith (CHAR_FORWARD_SLASH :: pushDist (normalizeString D false)), ?_, ?_⟩
  · rw [config_eq, resolve_dist_absolute cwd D hD]
  · rw [join_dist_absolute D hD]
    rfl

theorem output_path_eq_join_witness :
    isAbsolute (js "/srv/app//build/../") = true ∧
    ∃ cfg, config (.error .ENOENT_uv_cwd) (js "/srv/app//build/../") = .ok cfg ∧
      cfg.output.path = join [js "/srv/app//build/../", js "dist"] :=
  ⟨by decide, output_path_eq_join _ _ (by decide)⟩

/-- C2: with base directory `/repo/webpack/test_env`, construction produces
exactly the record `{ mode: "development", entry: "./index.js", output: { path:
"/repo/webpack/test_env/dist", filename: "app.bundle.js" }, devServer: { port:
9381 } }`, whatever the working directory of the process. -/
theorem config_test_env (cwd : Except JSError JSString) :
    config cwd (js "/repo/webpack/test_env") = .ok
      { mode := js "development",
        entry := js "./index.js",
        output := { path := js "/repo/webpack/test_env/dist", filename := js "app.bundle.js" },
        devServer := { port := 9381 } } := by
  rfl

/-- C3, as stated, fails: construction does not fail for a base directory that
does not exist.  The absolute directory `/no/such/dir` yields a record even
when `process.cwd()` throws, and nothing in the construction reads the file
system, so no predicate `dirExists` on directories forces a failure. -/
theorem config_missing_directory_succeeds :
    config (.error .ENOENT_uv_cwd) (js "/no/such/dir") = .ok
      { mode := js "development",
        entry := js "./index.js",
        output := { path := js "/no/such/dir/dist", filename := js "app.bundle.js" },
        devServer := { port := 9381 } } ∧
    ¬ ∀ (dirExists : JSString → Bool) (cwd : Except JSError JSString) (D : JSString),
        dirExists D = false → ∃ e, config cwd D = .error e := by
  have hv : config (.error .ENOENT_uv_cwd) (js "/no/such/dir") =
      .ok (exportsWith (js "/no/such/dir/dist")) := rfl
  refine ⟨hv, ?_⟩
  intro h
  obtain ⟨e, he⟩ := h (fun _ => false) (.error .ENOENT_uv_cwd) (js "/no/such/dir") rfl
  rw [hv] at he
  cases he

/-- C3, amended: construction never consults the file system about the base
directory.  Either the base directory is not absolute and `process.cwd()`
throws, and construction fails with that error; or the base directory is
absolute or `process.cwd()` returns, and construction returns a fully
populated record. -/
theorem config_fails_only_without_cwd (cwd : Except JSError JSString) (D : JSString) :
    (isAbsolute D = false ∧ ∃ e, cwd = .error e ∧ config cwd D = .error e) ∨
    ((isAbsolute D = true ∨ ∃ c, cwd = .ok c) ∧
      ∃ p, config cwd D = .ok
        { mode := js "development",
          entry := js "./index.js",
          output := { path := p, filename := js "app.bundle.js" },
          devServer := { port := 9381 } }) := by
  cases hD : isAbsolute D with
  | true =>
    exact Or.inr ⟨Or.inl rfl, _, by rw [config_eq, resolve_dist_absolute cwd D hD]; rfl⟩
  | false =>
    cases cwd with
    | error e =>
      refine Or.inl ⟨rfl, e, rfl, ?_⟩
      rw [config_eq, resolve_dist, resolveLoop_base, hD]
      rfl
    | ok c =>
      refine Or.inr ⟨Or.inr ⟨c, rfl⟩, ?_⟩
      rw [config_eq, resolve_dist, resolveLoop_base, hD]
      exact ⟨_, rfl⟩

/-- C4: for every base directory, the `devServer.port` of the constructed
record is the literal 9381, which lies in the port range 1..65535. -/
theorem devServer_port_literal (cwd : Except JSError JSString) (D : JSString) (cfg : Config)
    (h : config cwd D = .ok cfg) :
    cfg.devServer.port = 9381 ∧ 1 ≤ cfg.devServer.port ∧ cfg.devServer.port ≤ 65535 := by
  obtain ⟨_, hr⟩ := config_ok cwd D cfg h
  rw [hr]
  have hp : (exportsWith cfg.output.path).devServer.port = 9381 := rfl
  rw [hp]
  exact ⟨rfl, by decide, by decide⟩

theorem devServer_port_literal_witness :
    config (.ok (js "/var")) (js "www") = .ok (exportsWith (js "/var/www/dist")) ∧
    (exportsWith (js "/var/www/dist")).devServer.port = 9381 ∧
    1 ≤ (exportsWith (js "/var/www/dist")).devServer.port ∧
    (exportsWith (js "/var/www/dist")).devServer.port ≤ 65535 :=
  ⟨rfl, devServer_port_literal (.ok (js "/var")) (js "www") _ rfl⟩

/-- C5: for every base directory, the `mode` of the constructed record is one
of the permitted values `"development"` and `"production"`; construction has no
mode argument. -/
theorem mode_permitted (cwd : Except JSError JSString) (D : JSString) (cfg : Config)
    (h : config cwd D = .ok cfg) :
    cfg.mode = js "development" ∨ cfg.mode = js "production" := by
  obtain ⟨_, hr⟩ := config_ok cwd D cfg h
  rw [hr]
  exact Or.inl rfl

theorem mode_permitted_witness :
    config (.ok (js "/")) (js "/opt/site") = .ok (exportsWith (js "/opt/site/dist")) ∧
    ((exportsWith (js "/opt/site/dist")).mode = js "development" ∨
      (exportsWith (js "/opt/site/dist")).mode = js "production") :=
  ⟨rfl, mode_permitted (.ok (js "/")) (js "/opt/site") _ rfl⟩

/-- C6: construction is deterministic.  Constructing twice with the same base
directory gives the same outcome, hence structurally equal records, when the
working directory of the process is the same both times; for an absolute base
directory the working directory does not matter at all. -/
theorem config_deterministic (cwd₁ cwd₂ : Except JSError JSString) (D : JSString)
    (h : cwd₁ = cwd₂ ∨ isAbsolute D = true) :
    config cwd₁ D = config cwd₂ D := by
  rcases h with h | h
  · rw [h]
  · rw [config_eq, config_eq, resolve_dist_absolute cwd₁ D h, resolve_dist_absolute cwd₂ D h]

theorem config_deterministic_witness :
    ((Except.ok (js "/home/a") : Except JSError JSString) = .error .ENOENT_uv_cwd ∨
      isAbsolute (js "/repo/webpack/test_env") = true) ∧
    config (.ok (js "/home/a")) (js "/repo/webpack/test_env") =
      config (.error .ENOENT_uv_cwd) (js "/repo/webpack/test_env") :=
  ⟨Or.inr (by decide), config_deterministic _ _ _ (Or.inr (by decide))⟩

/-- C7: for every absolute base directory, construction returns a record whose
`output.path` is absolute (it begins with the root separator), whose `entry` is
the relative path `./index.js` (it begins with `./`), and whose
`output.filename` is the non-empty string `app.bundle.js`. -/
theorem output_path_absolute (cwd : Except JSError JSString) (D : JSString)
    (hD : isAbsolute D = true) :
    ∃ cfg, config cwd D = .ok cfg ∧
      isAbsolute cfg.output.path = true ∧
      cfg.output.path.head? = some CHAR_FORWARD_SLASH ∧
      cfg.entry = js "./index.js" ∧
      cfg.entry.take 2 = js "./" ∧
      isAbsolute cfg.entry = false ∧
      cfg.output.filename = js "app.bundle.js" ∧
      cfg.output.filename.length > 0 := by
  have e1 : List.take 2 (js "./index.js") = js "./" := by decide
  have e2 : isAbsolute (js "./index.js") = false := by decide
  have e3 : (js "app.bundle.js").length > 0 := by decide
  refine ⟨exportsWith (CHAR_FORWARD_SLASH :: pushDist (normalizeString D false)), ?_, ?_, rfl,
    rfl, e1, e2, rfl, e3⟩
  · rw [config_eq, resolve_dist_absolute cwd D hD]
  · simp [exportsWith, isAbsolute, charCodeAt]

theorem output_path_absolute_witness :
    isAbsolute (js "/a/./b/../c") = true ∧
    ∃ cfg, config (.ok (js "/tmp")) (js "/a/./b/../c") = .ok cfg ∧
      isAbsolute cfg.output.path = true ∧
      cfg.output.path.head? = some CHAR_FORWARD_SLASH ∧
      cfg.entry = js "./index.js" ∧
      cfg.entry.take 2 = js "./" ∧
      isAbsolute cfg.entry = false ∧
      cfg.output.filename = js "app.bundle.js" ∧
      cfg.output.filename.length > 0 :=
  ⟨by decide, output_path_absolute _ _ (by decide)⟩

/-- C9: only `output.path` depends on the base directory.  The records
constructed from any two base directories agree on `mode`, `entry`,
`output.filename` and `devServer.port`, and they agree on `output.path` as well
whenever the two base directories resolve to the same absolute directory. -/
theorem only_output_path_depends_on_dirname (cwd₁ cwd₂ : Except JSError JSString)
    (D₁ D₂ : JSString) (r₁ r₂ : Config)
    (h₁ : config cwd₁ D₁ = .ok r₁) (h₂ : config cwd₂ D₂ = .ok r₂) :
    r₁.mode = r₂.mode ∧ r₁.entry = r₂.entry ∧
    r₁.output.filename = r₂.output.filename ∧ r₁.devServer.port = r₂.devServer.port ∧
    (∀ p, resolve cwd₁ [D₁] = .ok p → resolve cwd₂ [D₂] = .ok p → isAbsolute p = true →
      r₁.output.path = r₂.output.path) := by
  obtain ⟨hp₁, hr₁⟩ := config_ok cwd₁ D₁ r₁ h₁
  obtain ⟨hp₂, hr₂⟩ := config_ok cwd₂ D₂ r₂ h₂
  refine ⟨?_, ?_, ?_, ?_, ?_⟩
  · rw [hr₁, hr₂]; rfl
  · rw [hr₁, hr₂]; rfl
  · rw [hr₁, hr₂]; rfl
  · rw [hr₁, hr₂]; rfl
  · intro p hq₁ hq₂ hp
    rw [resolve_dist_of_resolved cwd₁ D₁ p hq₁ hp] at hp₁
    rw [resolve_dist_of_resolved cwd₂ D₂ p hq₂ hp] at hp₂
    simp only [Except.ok.injEq] at hp₁ hp₂
    rw [← hp₁, ← hp₂]

theorem only_output_path_depends_on_dirname_witness :
    config (.ok (js "/srv")) (js "app/./x/..") = .ok (exportsWith (js "/srv/app/dist")) ∧
    config (.error .ENOENT_uv_cwd) (js "/srv//app/") = .ok (exportsWith (js "/srv/app/dist")) ∧
    (exportsWith (js "/srv/app/dist")).mode = (exportsWith (js "/srv/app/dist")).mode ∧
    (exportsWith (js "/srv/app/dist")).entry = (exportsWith (js "/srv/app/dist")).entry ∧
    (exportsWith (js "/srv/app/dist")).output.filename =
      (exportsWith (js "/srv/app/dist")).output.filename ∧
    (exportsWith (js "/srv/app/dist")).devServer.port =
      (exportsWith (js "/srv/app/dist")).devServer.port ∧
    (∀ p, resolve (.ok (js "/srv")) [js "app/./x/.."] = .ok p →
      resolve (.error .ENOENT_uv_cwd) [js "/srv//app/"] = .ok p → isAbsolute p = true →
      (exportsWith (js "/srv/app/dist")).output.path =
        (exportsWith (js "/srv/app/dist")).output.path) :=
  ⟨rfl, rfl, only_output_path_depends_on_dirname (.ok (js "/srv")) (.error .ENOENT_uv_cwd)
    (js "app/./x/..") (js "/srv//app/") _ _ rfl rfl⟩
